import Mathlib

set_option autoImplicit false
set_option linter.unusedVariables false
set_option linter.unusedSectionVars false

/-!
Verification of the selinonlib retry-scheduling and caching core.

The retry strategies are translated from `src/parsley/strategies.py`.
Durations are modelled as rationals: the Python code computes over numbers
and, in the decay branch of `biexponential_adopt`, uses true (non-truncating)
division, so all values live in `ℚ`.  Node collections are modelled as lists
of node identifiers; the strategies only ever inspect their lengths.
-/

namespace Selinonlib

/-- Translated from `linear_increase` in `src/parsley/strategies.py`:
increase linearly by `step` when a node started, reset to `start_retry`
otherwise, clamping at `max_retry`. -/
def linear_increase (start_retry max_retry step previous_retry : ℚ)
    (active_nodes failed_nodes started_nodes fallback_nodes : List Nat) : ℚ :=
  if started_nodes.length > 0 ∨ fallback_nodes.length > 0 then
    let retry := previous_retry + step
    if retry > max_retry then max_retry else retry
  else
    start_retry

/-- Translated from `linear_adopt` in `src/parsley/strategies.py`:
increase linearly by `step` when a node started, decrease linearly
otherwise, clamping to `[start_retry, max_retry]`. -/
def linear_adopt (start_retry max_retry step previous_retry : ℚ)
    (active_nodes failed_nodes started_nodes fallback_nodes : List Nat) : ℚ :=
  if started_nodes.length > 0 ∨ fallback_nodes.length > 0 then
    let retry := previous_retry + step
    if retry > max_retry then max_retry else retry
  else
    let retry := previous_retry - step
    if retry < start_retry then start_retry else retry

/-- Translated from `biexponential_increase` in `src/parsley/strategies.py`:
`start_retry` on the first call, doubling clamped at `max_retry` when a node
started, hard reset to `start_retry` otherwise. -/
def biexponential_increase (start_retry max_retry : ℚ) (previous_retry : Option ℚ)
    (active_nodes failed_nodes started_nodes fallback_nodes : List Nat) : ℚ :=
  match previous_retry with
  | none => start_retry
  | some previous =>
    if started_nodes.length > 0 ∨ fallback_nodes.length > 0 then
      let retry := previous * 2
      if retry > max_retry then max_retry else retry
    else
      start_retry

/-- Translated from `biexponential_adopt` in `src/parsley/strategies.py`:
`start_retry` on the first call, doubling clamped at `max_retry` when a node
started, halving (true division) clamped at `start_retry` otherwise. -/
def biexponential_adopt (start_retry max_retry : ℚ) (previous_retry : Option ℚ)
    (active_nodes failed_nodes started_nodes fallback_nodes : List Nat) : ℚ :=
  match previous_retry with
  | none => start_retry
  | some previous =>
    if started_nodes.length > 0 ∨ fallback_nodes.length > 0 then
      let retry := previous * 2
      if retry > max_retry then max_retry else retry
    else
      let retry := previous / 2
      if retry < start_retry then start_retry else retry

/-- Modelled from the Python standard library contract of `random.randint`:
`randint a b` draws a number `r` with `a ≤ r ≤ b`, both ends inclusive.
The draw is threaded explicitly so that `random` stays a function. -/
def randint_draw (a b r : ℚ) : Prop := a ≤ r ∧ r ≤ b

/-- Translated from `random` in `src/parsley/strategies.py`: return the value
drawn by `randint(start_retry, max_retry)`, ignoring every other argument.
The drawn value is passed as the explicit argument `drawn`. -/
def random (start_retry max_retry drawn : ℚ) (previous_retry : Option ℚ)
    (active_nodes failed_nodes started_nodes fallback_nodes : List Nat) : ℚ :=
  drawn

/-!
Result caches.  The concrete cache classes (`FIFO`, `LIFO`, `LRU`, `MRU`,
`RR` and `CacheMissError`, exported by `src/selinonlib/caches/__init__.py`)
are not part of the excerpted sources — only their package exports and the
LRU test suite are — so the cache is modelled from the spec, §3 and §4.1.
-/

/-- Modelled from the spec: the five pluggable eviction policies. -/
inductive Policy
  | fifo
  | lifo
  | lru
  | mru
  | rr
deriving DecidableEq

/-- Modelled from the spec: a bounded cache is an ordered association list
of key/value entries together with the eviction policy and the capacity
fixed at construction.  The list order is the ordering metadata of §3:
insertion order for FIFO/LIFO, use order for LRU/MRU, irrelevant for RR;
the newest end of the order is the tail. -/
structure Cache (K V : Type) where
  policy : Policy
  max_cache_size : Nat
  entries : List (K × V)

/-- The first value stored under `k`, `none` when `k` is absent. -/
def findVal {K V : Type} [DecidableEq K] : List (K × V) → K → Option V
  | [], _ => none
  | e :: es, k => if e.1 = k then some e.2 else findVal es k

/-- Remove every entry stored under `k`, keeping the order of the rest. -/
def removeKey {K V : Type} [DecidableEq K] : List (K × V) → K → List (K × V)
  | [], _ => []
  | e :: es, k => if e.1 = k then removeKey es k else e :: removeKey es k

/-- Overwrite in place the first value stored under `k`. -/
def overwriteVal {K V : Type} [DecidableEq K] : List (K × V) → K → V → List (K × V)
  | [], _, _ => []
  | e :: es, k, v => if e.1 = k then (k, v) :: es else e :: overwriteVal es k v

/-- Remove the element at position `i`, keeping the order of the rest. -/
def removeAt {α : Type} : List α → Nat → List α
  | [], _ => []
  | _ :: es, 0 => es
  | e :: es, i + 1 => e :: removeAt es i

/-- Modelled from the spec (victim-selection table of §4.1): the position of
the entry evicted under capacity pressure.  FIFO and LRU sacrifice the
oldest end of the order, LIFO and MRU the newest, RR a random position; the
random draw is threaded explicitly as `oracle`. -/
def victimIdx {K V : Type} (policy : Policy) (es : List (K × V)) (oracle : Nat) : Nat :=
  match policy with
  | .fifo | .lru => 0
  | .lifo | .mru => es.length - 1
  | .rr => oracle % es.length

/-- Modelled from the spec: the entry list after a `get` of `k`.  A hit
counts as a use for the use-ordered policies (LRU, MRU), moving the entry to
the most-recently-used end; FIFO, LIFO and RR leave the order untouched. -/
def getEntries {K V : Type} [DecidableEq K] (policy : Policy) (es : List (K × V))
    (k : K) : List (K × V) :=
  match findVal es k with
  | none => es
  | some v =>
    match policy with
    | .lru | .mru => removeKey es k ++ [(k, v)]
    | _ => es

/-- Modelled from the spec: `get` returns the stored value — `none` stands
for the `CacheMissError` failure, the only failure `get` has — and updates
the ordering metadata on a hit. -/
def getOp {K V : Type} [DecidableEq K] (c : Cache K V) (k : K) :
    Option V × Cache K V :=
  (findVal c.entries k, { c with entries := getEntries c.policy c.entries k })

/-- Modelled from the spec: the entry list after an `add` of `k ↦ v`.  An
existing key is overwritten — a use for LRU/MRU, a fresh insertion time for
LIFO, order-neutral for FIFO/RR; a new key is appended at the newest end of
the order, after evicting the policy's victim when the cache is full. -/
def addEntries {K V : Type} [DecidableEq K] (policy : Policy) (max_cache_size : Nat)
    (es : List (K × V)) (k : K) (v : V) (oracle : Nat) : List (K × V) :=
  match findVal es k with
  | some _ =>
    match policy with
    | .lifo | .lru | .mru => removeKey es k ++ [(k, v)]
    | .fifo | .rr => overwriteVal es k v
  | none =>
    (if max_cache_size ≤ es.length
      then removeAt es (victimIdx policy es oracle)
      else es) ++ [(k, v)]

/-- Modelled from the spec: `add` never fails and returns the updated
cache. -/
def addOp {K V : Type} [DecidableEq K] (c : Cache K V) (k : K) (v : V)
    (oracle : Nat) : Cache K V :=
  { c with entries := addEntries c.policy c.max_cache_size c.entries k v oracle }

/-- A cache as constructed: a policy, a capacity and no entries. -/
def Cache.empty {K V : Type} (policy : Policy) (max_cache_size : Nat) : Cache K V :=
  ⟨policy, max_cache_size, []⟩

/-- The number of entries, the spec's `size()`. -/
def Cache.size {K V : Type} (c : Cache K V) : Nat :=
  c.entries.length

/-- The keys currently held. -/
def Cache.keys {K V : Type} (c : Cache K V) : List K :=
  c.entries.map Prod.fst

/-- Whether `k` is currently held. -/
def Cache.present {K V : Type} [DecidableEq K] (c : Cache K V) (k : K) : Bool :=
  (findVal c.entries k).isSome

/-- Run a sequence of `add` calls, each with its key, value and eviction
oracle. -/
def runAdds {K V : Type} [DecidableEq K] (c : Cache K V) :
    List (K × V × Nat) → Cache K V
  | [] => c
  | (k, v, o) :: ops => runAdds (addOp c k v o) ops

/-- A scripted cache operation: an `add` or a `get`. -/
inductive CacheOp (K V : Type)
  | addO (k : K) (v : V) (oracle : Nat)
  | getO (k : K)

/-- Run a script of cache operations, collecting the result of every
`get`. -/
def runOps {K V : Type} [DecidableEq K] (c : Cache K V) :
    List (CacheOp K V) → List (Option V) × Cache K V
  | [] => ([], c)
  | .addO k v o :: ops => runOps (addOp c k v o) ops
  | .getO k :: ops =>
    let r := getOp c k
    let rest := runOps r.2 ops
    (r.1 :: rest.1, rest.2)

/-- The states a cache can be in: constructed with a positive capacity, then
any interleaving of `add` and `get` calls. -/
inductive Reachable {K V : Type} [DecidableEq K] : Cache K V → Prop
  | empty (policy : Policy) (n : Nat) (hn : 0 < n) :
      Reachable (Cache.empty policy n)
  | addStep {c : Cache K V} (k : K) (v : V) (o : Nat) :
      Reachable c → Reachable (addOp c k v o)
  | getStep {c : Cache K V} (k : K) :
      Reachable c → Reachable (getOp c k).2

/-- The keys of a cache's entry list are pairwise distinct. -/
def keysNodup {K V : Type} (c : Cache K V) : Prop :=
  (c.entries.map Prod.fst).Nodup

/-- The script of the LRU test `test_multiple_items_get`
(`src/test/caches/test_lru.py`): fill keys `0..15`, touch `10, 5, 3, 1, 7`
via `get`, insert five fresh keys, then `get` the evicted keys `0, 2, 4, 6,
8` and every surviving original key. -/
def lruScript : List (CacheOp Nat String) :=
  [.addO 0 "x0" 0, .addO 1 "x1" 0, .addO 2 "x2" 0, .addO 3 "x3" 0,
   .addO 4 "x4" 0, .addO 5 "x5" 0, .addO 6 "x6" 0, .addO 7 "x7" 0,
   .addO 8 "x8" 0, .addO 9 "x9" 0, .addO 10 "x10" 0, .addO 11 "x11" 0,
   .addO 12 "x12" 0, .addO 13 "x13" 0, .addO 14 "x14" 0, .addO 15 "x15" 0,
   .getO 10, .getO 5, .getO 3, .getO 1, .getO 7,
   .addO 100 "x100" 0, .addO 200 "x200" 0, .addO 300 "x300" 0,
   .addO 400 "x400" 0, .addO 500 "x500" 0,
   .getO 0, .getO 2, .getO 4, .getO 6, .getO 8,
   .getO 1, .getO 3, .getO 5, .getO 7, .getO 9, .getO 10,
   .getO 11, .getO 12, .getO 13, .getO 14, .getO 15]

/-!
MongoDB storage adapter, translated from `src/selinonlib/storages/mongo.py`.
The collection is modelled as the list of stored records; `collection.find`
with a `task_id` query is the filter over that list.
-/

/-- A record as written by `MongoStorage.store`. -/
structure MongoRecord where
  flow_name : String
  node_args : String
  task_name : String
  task_id : String
  result : String
deriving DecidableEq

/-- The outcome of `MongoStorage.retrieve`: a normal return or one of the
Python exceptions the body can raise. -/
inductive RetrieveOutcome
  | ok (result : String)
  | valueError
  | fileNotFoundError
  | indexError
  | assertionError
deriving DecidableEq

/-- Truthiness of a pymongo `Cursor`: the class defines neither `__bool__`
nor `__len__`, so a cursor object is always truthy, whatever it matched.
The guard `elif not cursor:` in `MongoStorage.retrieve` therefore never
fires. -/
def cursorTruthy (cursor : List MongoRecord) : Bool :=
  true

/-- Translated from `MongoStorage.retrieve` (the connected case: the leading
`assert self.is_connected()` passes).  `cursor.count() > 1` raises the
`ValueError` for ambiguity, the dead `elif not cursor:` guard would raise
`FileNotFoundError`, and `cursor[0]` raises `IndexError` on an empty cursor;
finally the `task_name` assertion is checked and the record's result
returned. -/
def MongoStorage.retrieve (collection : List MongoRecord)
    (flow_name task_name task_id : String) : RetrieveOutcome :=
  let cursor := collection.filter (fun r => r.task_id == task_id)
  if cursor.length > 1 then
    .valueError
  else if ¬ cursorTruthy cursor then
    .fileNotFoundError
  else
    match cursor.head? with
    | none => .indexError
    | some record =>
      if task_name = record.task_name then .ok record.result
      else .assertionError

/-- Translated from `MongoStorage.store_error`: the body is a bare
`raise NotImplementedError()`.  `Except.error` models a raised exception,
`Except.ok` a normal return. -/
def MongoStorage.store_error (node_args flow_name task_name task_id exc_info : String) :
    Except String Unit :=
  .error "NotImplementedError"

/-- Translated from the `GlobalConfig` class attributes in
`src/parsley/globalConfig.py`. -/
structure GlobalConfig where
  predicates_module : String
  trace : Option String
  dispatcher_strategy : Option String
deriving DecidableEq

/-- Translated from `GlobalConfig.from_dict`: copy `predicates_module` from
the dictionary when that key is present and change nothing else.  The
dictionary is modelled as a partial map from keys to values. -/
def GlobalConfig.from_dict (cls : GlobalConfig) (d : String → Option String) :
    GlobalConfig :=
  match d "predicates_module" with
  | some v => { cls with predicates_module := v }
  | none => cls

/-- A clamping `if` at the upper end is a minimum. -/
theorem clamp_high_eq_min (r m : ℚ) : (if r > m then m else r) = min r m := by
  rw [min_def]
  split_ifs <;> linarith

/-- A clamping `if` at the lower end is a maximum. -/
theorem clamp_low_eq_max (r s : ℚ) : (if r < s then s else r) = max r s := by
  rw [max_def]
  split_ifs <;> linarith

section CacheTheory

variable {K V : Type} [DecidableEq K]

theorem findVal_eq_none_iff (es : List (K × V)) (k : K) :
    findVal es k = none ↔ k ∉ es.map Prod.fst := by
  induction es with
  | nil => simp [findVal]
  | cons e es ih =>
    by_cases h : e.1 = k
    · simp [findVal, h]
    · simp only [findVal, if_neg h, ih, List.map_cons, List.mem_cons]
      constructor
      · rintro hk (hh | hh)
        · exact h hh.symm
        · exact hk hh
      · intro hk hm
        exact hk (Or.inr hm)

theorem findVal_append_of_none {es : List (K × V)} {k : K}
    (h : findVal es k = none) (es' : List (K × V)) :
    findVal (es ++ es') k = findVal es' k := by
  induction es with
  | nil => rfl
  | cons e es ih =>
    by_cases h' : e.1 = k
    · simp [findVal, h'] at h
    · simp only [findVal, if_neg h'] at h
      simpa only [List.cons_append, findVal, if_neg h'] using ih h

theorem findVal_append_of_some {es : List (K × V)} {k : K} {v : V}
    (h : findVal es k = some v) (es' : List (K × V)) :
    findVal (es ++ es') k = some v := by
  induction es with
  | nil => simp [findVal] at h
  | cons e es ih =>
    by_cases h' : e.1 = k
    · simp only [findVal, if_pos h'] at h
      simpa only [List.cons_append, findVal, if_pos h'] using h
    · simp only [findVal, if_neg h'] at h
      simpa only [List.cons_append, findVal, if_neg h'] using ih h

theorem findVal_append_singleton_ne {k k' : K} (h : k ≠ k')
    (es : List (K × V)) (v' : V) :
    findVal (es ++ [(k', v')]) k = findVal es k := by
  cases hf : findVal es k with
  | none =>
    rw [findVal_append_of_none hf]
    have hk : ¬ k' = k := fun hh => h hh.symm
    simp [findVal, hk]
  | some v => exact findVal_append_of_some hf _

theorem findVal_removeKey_self (es : List (K × V)) (k : K) :
    findVal (removeKey es k) k = none := by
  induction es with
  | nil => rfl
  | cons e es ih =>
    by_cases h : e.1 = k
    · simpa [removeKey, h] using ih
    · simpa [removeKey, findVal, h] using ih

theorem findVal_removeKey_ne {k k' : K} (h : k ≠ k') (es : List (K × V)) :
    findVal (removeKey es k') k = findVal es k := by
  induction es with
  | nil => rfl
  | cons e es ih =>
    by_cases h' : e.1 = k'
    · have hek : ¬ e.1 = k := fun hh => h (hh.symm.trans h')
      simp only [removeKey, if_pos h', findVal, if_neg hek]
      exact ih
    · by_cases hek : e.1 = k
      · simp only [removeKey, if_neg h', findVal, if_pos hek]
      · simp only [removeKey, if_neg h', findVal, if_neg hek]
        exact ih

theorem findVal_overwriteVal_ne {k k' : K} (h : k ≠ k') (es : List (K × V))
    (v : V) : findVal (overwriteVal es k' v) k = findVal es k := by
  induction es with
  | nil => rfl
  | cons e es ih =>
    by_cases h' : e.1 = k'
    · have hek : ¬ e.1 = k := fun hh => h (hh.symm.trans h')
      have hk'k : ¬ k' = k := fun hh => h hh.symm
      simp only [overwriteVal, if_pos h', findVal, if_neg hek, if_neg hk'k]
    · by_cases hek : e.1 = k
      · simp only [overwriteVal, if_neg h', findVal, if_pos hek]
      · simp only [overwriteVal, if_neg h', findVal, if_neg hek]
        exact ih

theorem findVal_overwriteVal_self {es : List (K × V)} {k : K} {w : V}
    (h : findVal es k = some w) (v : V) :
    findVal (overwriteVal es k v) k = some v := by
  induction es with
  | nil => simp [findVal] at h
  | cons e es ih =>
    by_cases h' : e.1 = k
    · simp [overwriteVal, if_pos h', findVal]
    · simp only [findVal, if_neg h'] at h
      simpa only [overwriteVal, if_neg h', findVal, if_neg h'] using ih h

theorem overwriteVal_map_fst (es : List (K × V)) (k : K) (v : V) :
    (overwriteVal es k v).map Prod.fst = es.map Prod.fst := by
  induction es with
  | nil => rfl
  | cons e es ih =>
    by_cases h : e.1 = k <;> simp [overwriteVal, h, ih]

theorem length_overwriteVal (es : List (K × V)) (k : K) (v : V) :
    (overwriteVal es k v).length = es.length := by
  simpa using congrArg List.length (overwriteVal_map_fst es k v)

theorem removeKey_sublist (es : List (K × V)) (k : K) :
    List.Sublist (removeKey es k) es := by
  induction es with
  | nil => simp [removeKey]
  | cons e es ih =>
    by_cases h : e.1 = k
    · simpa only [removeKey, if_pos h] using ih.cons e
    · simpa only [removeKey, if_neg h] using ih.cons₂ e

theorem length_removeKey_lt {es : List (K × V)} {k : K} {v : V}
    (h : findVal es k = some v) : (removeKey es k).length < es.length := by
  induction es with
  | nil => simp [findVal] at h
  | cons e es ih =>
    by_cases h' : e.1 = k
    · have := (removeKey_sublist es k).length_le
      simp only [removeKey, if_pos h', List.length_cons]
      omega
    · simp only [findVal, if_neg h'] at h
      have := ih h
      simp only [removeKey, if_neg h', List.length_cons]
      omega

theorem removeAt_sublist {α : Type} (l : List α) (i : Nat) :
    List.Sublist (removeAt l i) l := by
  induction l generalizing i with
  | nil => simp [removeAt]
  | cons a l ih =>
    cases i with
    | zero => exact (List.Sublist.refl l).cons a
    | succ i => exact (ih i).cons₂ a

theorem length_removeAt {α : Type} (l : List α) (i : Nat) (h : i < l.length) :
    (removeAt l i).length = l.length - 1 := by
  induction l generalizing i with
  | nil => simp at h
  | cons a l ih =>
    cases i with
    | zero => simp [removeAt]
    | succ i =>
      have hi : i < l.length := by simpa using h
      simp only [removeAt, List.length_cons, ih i hi]
      omega

theorem removeAt_map {α β : Type} (f : α → β) (l : List α) (i : Nat) :
    (removeAt l i).map f = removeAt (l.map f) i := by
  induction l generalizing i with
  | nil => rfl
  | cons a l ih =>
    cases i with
    | zero => rfl
    | succ i => simp [removeAt, ih]

theorem removeAt_exactly_one {α : Type} (l : List α) (i : Nat)
    (hi : i < l.length) (hnd : l.Nodup) :
    l.get ⟨i, hi⟩ ∉ removeAt l i ∧
      ∀ y ∈ l, y ∉ removeAt l i → y = l.get ⟨i, hi⟩ := by
  induction l generalizing i with
  | nil => simp at hi
  | cons a l ih =>
    obtain ⟨ha, hnd'⟩ := List.nodup_cons.mp hnd
    cases i with
    | zero =>
      refine ⟨ha, ?_⟩
      intro y hy hny
      rcases List.mem_cons.mp hy with h | h
      · exact h
      · exact absurd h hny
    | succ i =>
      have hi' : i < l.length := by simpa using hi
      obtain ⟨hx, huniq⟩ := ih i hi' hnd'
      have hxl : l.get ⟨i, hi'⟩ ∈ l := List.get_mem l i hi'
      have hxa : l.get ⟨i, hi'⟩ ≠ a := fun hh => ha (hh ▸ hxl)
      refine ⟨?_, ?_⟩
      · intro hmem
        rcases List.mem_cons.mp hmem with h | h
        · exact hxa h
        · exact hx h
      · intro y hy hny
        rcases List.mem_cons.mp hy with h | h
        · exact absurd (h ▸ List.mem_cons_self a (removeAt l i)) hny
        · exact huniq y h fun hmem => hny (List.mem_cons_of_mem a hmem)

theorem findVal_eq_some_iff_mem {es : List (K × V)}
    (hnd : (es.map Prod.fst).Nodup) (k : K) (v : V) :
    findVal es k = some v ↔ (k, v) ∈ es := by
  induction es with
  | nil => simp [findVal]
  | cons e es ih =>
    simp only [List.map_cons, List.nodup_cons] at hnd
    obtain ⟨ha, hnd'⟩ := hnd
    by_cases h : e.1 = k
    · subst h
      constructor
      · intro hv
        have hv' : e.2 = v := by simpa [findVal] using hv
        subst hv'
        exact List.mem_cons_self e es
      · intro hm
        rcases List.mem_cons.mp hm with hh | hh
        · have hv : v = e.2 := congrArg Prod.snd hh
          subst hv
          simp [findVal]
        · exact absurd (List.mem_map_of_mem Prod.fst hh) ha
    · simp only [findVal, if_neg h, ih hnd', List.mem_cons]
      constructor
      · exact Or.inr
      · rintro (hh | hh)
        · exact absurd (congrArg Prod.fst hh).symm h
        · exact hh

theorem nodup_append_singleton {α : Type} {l : List α} {a : α}
    (h : l.Nodup) (ha : a ∉ l) : (l ++ [a]).Nodup := by
  simp [List.nodup_append, h, ha, List.disjoint_singleton]

theorem keys_removeKey_append_nodup {es : List (K × V)} {k : K} {v : V}
    (hnd : (es.map Prod.fst).Nodup) :
    ((removeKey es k ++ [(k, v)]).map Prod.fst).Nodup := by
  have hsub : List.Sublist ((removeKey es k).map Prod.fst) (es.map Prod.fst) :=
    (removeKey_sublist es k).map Prod.fst
  have hk : k ∉ (removeKey es k).map Prod.fst :=
    (findVal_eq_none_iff _ _).mp (findVal_removeKey_self es k)
  rw [List.map_append]
  exact nodup_append_singleton (hnd.sublist hsub) hk

theorem addEntries_keys_nodup (policy : Policy) (n : Nat) {es : List (K × V)}
    (hnd : (es.map Prod.fst).Nodup) (k : K) (v : V) (o : Nat) :
    ((addEntries policy n es k v o).map Prod.fst).Nodup := by
  cases hf : findVal es k with
  | some w =>
    cases policy <;>
      simp only [addEntries, hf] <;>
      first
        | exact keys_removeKey_append_nodup hnd
        | (rw [overwriteVal_map_fst]; exact hnd)
  | none =>
    have hk : k ∉ es.map Prod.fst := (findVal_eq_none_iff es k).mp hf
    by_cases hcap : n ≤ es.length
    · simp only [addEntries, hf, if_pos hcap]
      have hsub : List.Sublist
          ((removeAt es (victimIdx policy es o)).map Prod.fst)
          (es.map Prod.fst) :=
        (removeAt_sublist es _).map Prod.fst
      rw [List.map_append]
      exact nodup_append_singleton (hnd.sublist hsub) fun hm => hk (hsub.subset hm)
    · simp only [addEntries, hf, if_neg hcap]
      rw [List.map_append]
      exact nodup_append_singleton hnd hk

theorem getEntries_keys_nodup (policy : Policy) {es : List (K × V)}
    (hnd : (es.map Prod.fst).Nodup) (k : K) :
    ((getEntries policy es k).map Prod.fst).Nodup := by
  cases hf : findVal es k with
  | none => simpa only [getEntries, hf] using hnd
  | some w =>
    cases policy <;> simp only [getEntries, hf] <;>
      first
        | exact keys_removeKey_append_nodup hnd
        | exact hnd

theorem keysNodup_reachable {c : Cache K V} (h : Reachable c) : keysNodup c := by
  induction h with
  | empty policy n hn => simp [keysNodup, Cache.empty]
  | addStep k v o _ ih => exact addEntries_keys_nodup _ _ ih k v o
  | getStep k _ ih => exact getEntries_keys_nodup _ ih k

theorem findVal_removeKey_append (es : List (K × V)) (k k₂ : K) (w : V)
    (hf : findVal es k₂ = some w) :
    findVal (removeKey es k₂ ++ [(k₂, w)]) k = findVal es k := by
  by_cases hk : k = k₂
  · subst hk
    rw [findVal_append_of_none (findVal_removeKey_self es k), hf]
    simp [findVal]
  · rw [findVal_append_singleton_ne hk, findVal_removeKey_ne hk]

theorem findVal_getEntries (policy : Policy) (es : List (K × V)) (k k₂ : K) :
    findVal (getEntries policy es k₂) k = findVal es k := by
  cases hf : findVal es k₂ with
  | none => simp only [getEntries, hf]
  | some w =>
    cases policy <;> simp only [getEntries, hf] <;>
      exact findVal_removeKey_append es k k₂ w hf

theorem findVal_addEntries_self (policy : Policy) (n : Nat) (es : List (K × V))
    (k : K) (v : V) (o : Nat) :
    findVal (addEntries policy n es k v o) k = some v := by
  cases hf : findVal es k with
  | some w =>
    cases policy <;> simp only [addEntries, hf] <;>
      first
        | (rw [findVal_append_of_none (findVal_removeKey_self es k)]; simp [findVal])
        | exact findVal_overwriteVal_self hf v
  | none =>
    have hk : k ∉ es.map Prod.fst := (findVal_eq_none_iff es k).mp hf
    by_cases hcap : n ≤ es.length
    · simp only [addEntries, hf, if_pos hcap]
      have hsub := (removeAt_sublist es (victimIdx policy es o)).map Prod.fst
      have hk' : k ∉ (removeAt es (victimIdx policy es o)).map Prod.fst :=
        fun hm => hk (hsub.subset hm)
      rw [findVal_append_of_none ((findVal_eq_none_iff _ _).mpr hk')]
      simp [findVal]
    · simp only [addEntries, hf, if_neg hcap]
      rw [findVal_append_of_none hf]
      simp [findVal]

theorem findVal_addEntries_ne (policy : Policy) (n : Nat) {es : List (K × V)}
    (hnd : (es.map Prod.fst).Nodup) {k k' : K} (hne : k ≠ k') (v' : V) (o : Nat)
    (hpres : (findVal (addEntries policy n es k' v' o) k).isSome) :
    findVal (addEntries policy n es k' v' o) k = findVal es k := by
  cases hf : findVal es k' with
  | some w =>
    cases policy <;> simp only [addEntries, hf] <;>
      first
        | (rw [findVal_append_singleton_ne hne, findVal_removeKey_ne hne])
        | exact findVal_overwriteVal_ne hne es v'
  | none =>
    by_cases hcap : n ≤ es.length
    · simp only [addEntries, hf, if_pos hcap] at hpres ⊢
      rw [findVal_append_singleton_ne hne] at hpres ⊢
      cases hg : findVal (removeAt es (victimIdx policy es o)) k with
      | none => rw [hg] at hpres; simp at hpres
      | some u =>
        have hndr : ((removeAt es (victimIdx policy es o)).map Prod.fst).Nodup :=
          hnd.sublist ((removeAt_sublist es _).map Prod.fst)
        have hmem : (k, u) ∈ removeAt es (victimIdx policy es o) :=
          (findVal_eq_some_iff_mem hndr k u).mp hg
        have hmem' : (k, u) ∈ es := (removeAt_sublist es _).subset hmem
        exact ((findVal_eq_some_iff_mem hnd k u).mpr hmem').symm
    · simp only [addEntries, hf, if_neg hcap]
      exact findVal_append_singleton_ne hne es v'

theorem victimIdx_lt (policy : Policy) (es : List (K × V)) (o : Nat)
    (hpos : 0 < es.length) : victimIdx policy es o < es.length := by
  cases policy with
  | fifo => exact hpos
  | lru => exact hpos
  | lifo => show es.length - 1 < es.length; omega
  | mru => show es.length - 1 < es.length; omega
  | rr => exact Nat.mod_lt _ hpos

theorem addEntries_length_le (policy : Policy) (n : Nat) {es : List (K × V)}
    (hn : 0 < n) (hle : es.length ≤ n) (k : K) (v : V) (o : Nat) :
    (addEntries policy n es k v o).length ≤ n := by
  cases hf : findVal es k with
  | some w =>
    have hlt := length_removeKey_lt hf
    cases policy <;>
      simp only [addEntries, hf, List.length_append, List.length_cons,
        List.length_nil, length_overwriteVal] <;> omega
  | none =>
    by_cases hcap : n ≤ es.length
    · have hpos : 0 < es.length := lt_of_lt_of_le hn hcap
      have hi := victimIdx_lt policy es o hpos
      simp only [addEntries, hf, if_pos hcap, List.length_append,
        length_removeAt es _ hi, List.length_cons, List.length_nil]
      omega
    · simp only [addEntries, hf, if_neg hcap, List.length_append,
        List.length_cons, List.length_nil]
      omega

theorem isSome_eq_false_iff {α : Type} (x : Option α) :
    x.isSome = false ↔ x = none := by
  cases x <;> simp

theorem runAdds_size_le_aux {c : Cache K V} (hn : 0 < c.max_cache_size)
    (hle : c.entries.length ≤ c.max_cache_size) (ops : List (K × V × Nat)) :
    (runAdds c ops).entries.length ≤ (runAdds c ops).max_cache_size ∧
      (runAdds c ops).max_cache_size = c.max_cache_size := by
  induction ops generalizing c with
  | nil => exact ⟨hle, rfl⟩
  | cons op ops ih =>
    obtain ⟨k, v, o⟩ := op
    have hstep : (addOp c k v o).entries.length ≤ c.max_cache_size :=
      addEntries_length_le c.policy c.max_cache_size hn hle k v o
    have hrec := ih (c := addOp c k v o) hn hstep
    exact ⟨hrec.1, hrec.2⟩

end CacheTheory

/-- C1 (counterexample): the claim as stated allows a negative `start_retry`,
and `biexponential_increase` then escapes `[start_retry, max_retry]`.  With
`start_retry = -3`, `max_retry = 0`, `step = 1`, `previous_retry = -3` (all of
the claim's validity conditions hold) and one started node, the strategy
returns `-6 < start_retry`. -/
theorem C1_counterexample :
    ((-3 : ℚ) ≤ 0 ∧ (0 : ℚ) < 1 ∧ (-3 : ℚ) ≤ -3 ∧ (-3 : ℚ) ≤ 0) ∧
    biexponential_increase (-3) 0 (some (-3)) [] [] [7] [] = -6 ∧
    ¬ ((-3 : ℚ) ≤ -6 ∧ (-6 : ℚ) ≤ 0) := by
  refine ⟨⟨by norm_num, by norm_num, le_refl _, by norm_num⟩, ?_, by norm_num⟩
  simp only [biexponential_increase, List.length_cons, List.length_nil]
  norm_num

/-- C1 (amended): under the additional hypothesis `0 ≤ start_retry`
(retry intervals are durations), every strategy returns a value in the
closed interval `[start_retry, max_retry]` on every valid call: parameters
with `start_retry ≤ max_retry`, `0 < step`, `previous_retry` in
`[start_retry, max_retry]` (or unset where permitted), and a `randint` draw
within its documented bounds. -/
theorem C1_clamped (start_retry max_retry step previous drawn : ℚ)
    (active_nodes failed_nodes started_nodes fallback_nodes : List Nat)
    (hstart : 0 ≤ start_retry) (hrange : start_retry ≤ max_retry) (hstep : 0 < step)
    (hprev₁ : start_retry ≤ previous) (hprev₂ : previous ≤ max_retry)
    (hdraw : randint_draw start_retry max_retry drawn) :
    (start_retry ≤ linear_increase start_retry max_retry step previous
        active_nodes failed_nodes started_nodes fallback_nodes ∧
      linear_increase start_retry max_retry step previous
        active_nodes failed_nodes started_nodes fallback_nodes ≤ max_retry) ∧
    (start_retry ≤ linear_adopt start_retry max_retry step previous
        active_nodes failed_nodes started_nodes fallback_nodes ∧
      linear_adopt start_retry max_retry step previous
        active_nodes failed_nodes started_nodes fallback_nodes ≤ max_retry) ∧
    (∀ prev : Option ℚ, (∀ p, prev = some p → start_retry ≤ p ∧ p ≤ max_retry) →
      (start_retry ≤ biexponential_increase start_retry max_retry prev
          active_nodes failed_nodes started_nodes fallback_nodes ∧
        biexponential_increase start_retry max_retry prev
          active_nodes failed_nodes started_nodes fallback_nodes ≤ max_retry) ∧
      (start_retry ≤ biexponential_adopt start_retry max_retry prev
          active_nodes failed_nodes started_nodes fallback_nodes ∧
        biexponential_adopt start_retry max_retry prev
          active_nodes failed_nodes started_nodes fallback_nodes ≤ max_retry)) ∧
    (start_retry ≤ random start_retry max_retry drawn (some previous)
        active_nodes failed_nodes started_nodes fallback_nodes ∧
      random start_retry max_retry drawn (some previous)
        active_nodes failed_nodes started_nodes fallback_nodes ≤ max_retry) := by
  obtain ⟨hd₁, hd₂⟩ := hdraw
  refine ⟨?_, ?_, ?_, ⟨hd₁, hd₂⟩⟩
  · unfold linear_increase
    simp only
    split_ifs <;> constructor <;> linarith
  · unfold linear_adopt
    simp only
    split_ifs <;> constructor <;> linarith
  · rintro (_ | ⟨p⟩) hp
    · unfold biexponential_increase biexponential_adopt
      exact ⟨⟨le_refl _, hrange⟩, ⟨le_refl _, hrange⟩⟩
    · obtain ⟨hp₁, hp₂⟩ := hp p rfl
      unfold biexponential_increase biexponential_adopt
      constructor
      · simp only
        split_ifs <;> constructor <;> linarith
      · simp only
        split_ifs <;> constructor <;> linarith

/-- C1 (witness): the amended clamping theorem applied at
`start_retry = 1, max_retry = 10, step = 2, previous = 5, drawn = 7`
with one started node. -/
theorem C1_clamped_witness :
    (1 ≤ linear_increase 1 10 2 5 [] [] [3] [] ∧
      linear_increase 1 10 2 5 [] [] [3] [] ≤ 10) ∧
    (1 ≤ linear_adopt 1 10 2 5 [] [] [3] [] ∧
      linear_adopt 1 10 2 5 [] [] [3] [] ≤ 10) ∧
    (∀ prev : Option ℚ, (∀ p, prev = some p → 1 ≤ p ∧ p ≤ 10) →
      (1 ≤ biexponential_increase 1 10 prev [] [] [3] [] ∧
        biexponential_increase 1 10 prev [] [] [3] [] ≤ 10) ∧
      (1 ≤ biexponential_adopt 1 10 prev [] [] [3] [] ∧
        biexponential_adopt 1 10 prev [] [] [3] [] ≤ 10)) ∧
    (1 ≤ random 1 10 7 (some 5) [] [] [3] [] ∧
      random 1 10 7 (some 5) [] [] [3] [] ≤ 10) :=
  C1_clamped 1 10 2 5 7 [] [] [3] []
    (by norm_num) (by norm_num) (by norm_num) (by norm_num) (by norm_num)
    ⟨by norm_num, by norm_num⟩

/-- C3: with no started and no fallback nodes, `linear_increase` and
`biexponential_increase` (with `previous_retry` set) return exactly
`start_retry`, whatever `previous_retry`, `active_nodes` and `failed_nodes`
are. -/
theorem C3_reset_on_no_progress (start_retry max_retry step previous : ℚ)
    (active_nodes failed_nodes : List Nat) :
    linear_increase start_retry max_retry step previous
      active_nodes failed_nodes [] [] = start_retry ∧
    biexponential_increase start_retry max_retry (some previous)
      active_nodes failed_nodes [] [] = start_retry := by
  constructor <;> simp [linear_increase, biexponential_increase]

/-- C4: every strategy's result is independent of `active_nodes` and
`failed_nodes`, and each branching strategy takes its growth branch exactly
when `started_nodes` or `fallback_nodes` is non-empty: the result equals the
growth formula in that case and the decay/reset formula otherwise. -/
theorem C4_progress_classification (start_retry max_retry step previous drawn : ℚ)
    (prev : Option ℚ) (a₁ f₁ a₂ f₂ st fb : List Nat) :
    (linear_increase start_retry max_retry step previous a₁ f₁ st fb
      = linear_increase start_retry max_retry step previous a₂ f₂ st fb) ∧
    (linear_adopt start_retry max_retry step previous a₁ f₁ st fb
      = linear_adopt start_retry max_retry step previous a₂ f₂ st fb) ∧
    (biexponential_increase start_retry max_retry prev a₁ f₁ st fb
      = biexponential_increase start_retry max_retry prev a₂ f₂ st fb) ∧
    (biexponential_adopt start_retry max_retry prev a₁ f₁ st fb
      = biexponential_adopt start_retry max_retry prev a₂ f₂ st fb) ∧
    (random start_retry max_retry drawn prev a₁ f₁ st fb
      = random start_retry max_retry drawn prev a₂ f₂ st fb) ∧
    (linear_increase start_retry max_retry step previous a₁ f₁ st fb
      = if st ≠ [] ∨ fb ≠ [] then min (previous + step) max_retry
        else start_retry) ∧
    (linear_adopt start_retry max_retry step previous a₁ f₁ st fb
      = if st ≠ [] ∨ fb ≠ [] then min (previous + step) max_retry
        else max (previous - step) start_retry) ∧
    (biexponential_increase start_retry max_retry (some previous) a₁ f₁ st fb
      = if st ≠ [] ∨ fb ≠ [] then min (previous * 2) max_retry
        else start_retry) ∧
    (biexponential_adopt start_retry max_retry (some previous) a₁ f₁ st fb
      = if st ≠ [] ∨ fb ≠ [] then min (previous * 2) max_retry
        else max (previous / 2) start_retry) := by
  have hcond : (st.length > 0 ∨ fb.length > 0) ↔ (st ≠ [] ∨ fb ≠ []) := by
    simp [List.length_pos]
  refine ⟨?_, ?_, ?_, ?_, rfl, ?_, ?_, ?_, ?_⟩ <;>
    (try cases prev) <;>
    simp only [linear_increase, linear_adopt, biexponential_increase,
      biexponential_adopt, random, clamp_high_eq_min, clamp_low_eq_max, hcond]

/-- C5: with `previous_retry` set, `biexponential_increase` and
`biexponential_adopt` both return `min (previous * 2) max_retry` on a
progress tick, and `biexponential_adopt` returns `max (previous / 2)
start_retry` on a no-progress tick; the halving is exact division in `ℚ`. -/
theorem C5_biexponential_exact (start_retry max_retry previous : ℚ)
    (active_nodes failed_nodes started_nodes fallback_nodes : List Nat) :
    (started_nodes ≠ [] ∨ fallback_nodes ≠ [] →
      biexponential_increase start_retry max_retry (some previous)
        active_nodes failed_nodes started_nodes fallback_nodes
        = min (previous * 2) max_retry ∧
      biexponential_adopt start_retry max_retry (some previous)
        active_nodes failed_nodes started_nodes fallback_nodes
        = min (previous * 2) max_retry) ∧
    (started_nodes = [] ∧ fallback_nodes = [] →
      biexponential_adopt start_retry max_retry (some previous)
        active_nodes failed_nodes started_nodes fallback_nodes
        = max (previous / 2) start_retry) := by
  have hcond : (started_nodes.length > 0 ∨ fallback_nodes.length > 0)
      ↔ (started_nodes ≠ [] ∨ fallback_nodes ≠ []) := by
    simp [List.length_pos]
  constructor
  · intro h
    constructor <;>
      simp only [biexponential_increase, biexponential_adopt,
        clamp_high_eq_min, clamp_low_eq_max, hcond, if_pos h]
  · rintro ⟨h₁, h₂⟩
    subst h₁; subst h₂
    simp [biexponential_adopt, clamp_low_eq_max]

/-- C2: for every eviction policy, every sequence of `add` calls on a cache
constructed with a positive `max_cache_size` keeps the size bounded by
`max_cache_size` after every call; and an `add` of a new key to a full cache
keeps the size at capacity, inserts the key, and evicts exactly one existing
entry. -/
theorem C2_capacity_invariant {K V : Type} [DecidableEq K] (policy : Policy)
    (n : Nat) (ops : List (K × V × Nat)) (c : Cache K V) (k : K) (v : V)
    (o : Nat) (hn : 0 < n) (hmax : c.max_cache_size = n) (hnd : keysNodup c)
    (hfull : c.size = n) (hnew : c.present k = false) :
    (runAdds (Cache.empty policy n) ops).size ≤ n ∧
    (addOp c k v o).size = n ∧
    (addOp c k v o).present k = true ∧
    (∃ k', k' ∈ c.keys ∧ (addOp c k v o).present k' = false ∧
      ∀ k'', k'' ∈ c.keys → (addOp c k v o).present k'' = false → k'' = k') := by
  have h1 : (runAdds (Cache.empty policy n) ops).size ≤ n := by
    have haux := runAdds_size_le_aux (c := (Cache.empty policy n : Cache K V))
      (by simpa [Cache.empty] using hn) (by simp [Cache.empty]) ops
    calc (runAdds (Cache.empty policy n) ops).size
        ≤ (runAdds (Cache.empty policy n) ops).max_cache_size := haux.1
      _ = n := haux.2
  have hfind : findVal c.entries k = none := by
    have := (isSome_eq_false_iff (findVal c.entries k)).mp hnew
    exact this
  have hlen : c.entries.length = n := hfull
  have hcap : c.max_cache_size ≤ c.entries.length := by rw [hmax, hlen]
  have hpos : 0 < c.entries.length := by rw [hlen]; exact hn
  have hi := victimIdx_lt c.policy c.entries o hpos
  have hentries : (addOp c k v o).entries
      = removeAt c.entries (victimIdx c.policy c.entries o) ++ [(k, v)] := by
    show addEntries c.policy c.max_cache_size c.entries k v o = _
    simp only [addEntries, hfind, if_pos hcap]
  have hkeys_sub := (removeAt_sublist c.entries (victimIdx c.policy c.entries o)).map Prod.fst
  have hknot : k ∉ c.entries.map Prod.fst := (findVal_eq_none_iff _ _).mp hfind
  have hsize : (addOp c k v o).size = n := by
    unfold Cache.size
    rw [hentries, List.length_append, length_removeAt c.entries _ hi,
      List.length_cons, List.length_nil]
    omega
  have hpresent : (addOp c k v o).present k = true := by
    unfold Cache.present
    rw [hentries, findVal_append_of_none ((findVal_eq_none_iff _ _).mpr
      (fun hm => hknot (hkeys_sub.subset hm)))]
    simp [findVal]
  have hilen : victimIdx c.policy c.entries o < (c.entries.map Prod.fst).length := by
    simpa using hi
  obtain ⟨hvict_not, hvict_uniq⟩ :=
    removeAt_exactly_one (c.entries.map Prod.fst) (victimIdx c.policy c.entries o)
      hilen hnd
  have hpres_iff : ∀ k' ∈ c.keys, ((addOp c k v o).present k' = false ↔
      k' ∉ removeAt (c.entries.map Prod.fst) (victimIdx c.policy c.entries o)) := by
    intro k' hk'
    have hne : k' ≠ k := fun hh => hknot (hh ▸ hk')
    unfold Cache.present
    rw [hentries, findVal_append_singleton_ne hne, isSome_eq_false_iff,
      findVal_eq_none_iff, removeAt_map]
  refine ⟨h1, hsize, hpresent,
    (c.entries.map Prod.fst).get ⟨victimIdx c.policy c.entries o, hilen⟩,
    List.get_mem _ _ _, ?_, ?_⟩
  · exact (hpres_iff _ (List.get_mem _ _ _)).mpr hvict_not
  · intro k'' hk'' hpf
    exact hvict_uniq k'' hk'' ((hpres_iff k'' hk'').mp hpf)

/-- C2 (witness): the capacity invariant applied to a full RR cache of
capacity 2 holding keys 0 and 1, adding the fresh key 5 with eviction
oracle 3, and to the `add` sequence (0, 2, 4) on an empty RR cache of
capacity 2. -/
theorem C2_capacity_invariant_witness :
    (runAdds (Cache.empty Policy.rr 2 : Cache Nat Nat)
        [(0, 1, 0), (2, 3, 0), (4, 5, 0)]).size ≤ 2 ∧
    (addOp (⟨Policy.rr, 2, [(0, 10), (1, 11)]⟩ : Cache Nat Nat) 5 55 3).size = 2 ∧
    (addOp (⟨Policy.rr, 2, [(0, 10), (1, 11)]⟩ : Cache Nat Nat) 5 55 3).present 5
      = true ∧
    (∃ k', k' ∈ (⟨Policy.rr, 2, [(0, 10), (1, 11)]⟩ : Cache Nat Nat).keys ∧
      (addOp (⟨Policy.rr, 2, [(0, 10), (1, 11)]⟩ : Cache Nat Nat) 5 55 3).present k'
        = false ∧
      ∀ k'', k'' ∈ (⟨Policy.rr, 2, [(0, 10), (1, 11)]⟩ : Cache Nat Nat).keys →
        (addOp (⟨Policy.rr, 2, [(0, 10), (1, 11)]⟩ : Cache Nat Nat) 5 55 3).present k''
          = false → k'' = k') :=
  C2_capacity_invariant Policy.rr 2 [(0, 1, 0), (2, 3, 0), (4, 5, 0)]
    (⟨Policy.rr, 2, [(0, 10), (1, 11)]⟩ : Cache Nat Nat) 5 55 3
    (by decide) rfl
    (by show (([(0, 10), (1, 11)] : List (Nat × Nat)).map Prod.fst).Nodup; decide)
    rfl rfl

/-- C6: on an LRU cache of capacity 16 filled with keys 0..15, touching
keys 10, 5, 3, 1, 7 via `get` and then adding five fresh keys evicts exactly
keys 0, 2, 4, 6, 8 (each later `get` misses) while every other original key
is still retrievable with its stored value. -/
theorem C6_lru_multiple_items_get :
    (runOps (Cache.empty Policy.lru 16) lruScript).1 =
      [some "x10", some "x5", some "x3", some "x1", some "x7",
       none, none, none, none, none,
       some "x1", some "x3", some "x5", some "x7", some "x9", some "x10",
       some "x11", some "x12", some "x13", some "x14", some "x15"] := by
  rfl

/-- C7: for every policy and every reachable cache state, `get` misses (the
`CacheMissError`, its only failure, modelled as `none`) exactly on absent
keys; a present key never fails and yields the most recently stored value:
right after `add k v'` a `get` of `k` returns `v'`, and the value returned
for `k` is unchanged by `add`s of other keys (as long as `k` stays present)
and by any other `get`. -/
theorem C7_get_miss_semantics {K V : Type} [DecidableEq K] (c : Cache K V)
    (h : Reachable c) (k k' : K) (v v' : V) (o : Nat) :
    ((getOp c k).1 = none ↔ k ∉ c.keys) ∧
    (findVal c.entries k = some v → (getOp c k).1 = some v) ∧
    ((getOp (addOp c k v' o) k).1 = some v') ∧
    (k ≠ k' → (addOp c k' v' o).present k = true →
      (getOp (addOp c k' v' o) k).1 = (getOp c k).1) ∧
    (∀ k₂, (getOp (getOp c k₂).2 k).1 = (getOp c k).1) := by
  have hnd := keysNodup_reachable h
  refine ⟨findVal_eq_none_iff c.entries k, fun hv => hv, ?_, ?_, ?_⟩
  · show findVal (addEntries c.policy c.max_cache_size c.entries k v' o) k
      = some v'
    exact findVal_addEntries_self _ _ _ _ _ _
  · intro hne hpres
    show findVal (addEntries c.policy c.max_cache_size c.entries k' v' o) k
      = findVal c.entries k
    exact findVal_addEntries_ne _ _ hnd hne v' o hpres
  · intro k₂
    show findVal (getEntries c.policy c.entries k₂) k = findVal c.entries k
    exact findVal_getEntries _ _ _ _

/-- C7 (witness): the miss-semantics theorem applied to the freshly
constructed LRU cache of capacity 2 over natural keys and values, with
`k = 0`, `k' = 1`, `v = 7`, `v' = 5` and oracle 0. -/
theorem C7_get_miss_semantics_witness :
    ((getOp (Cache.empty Policy.lru 2 : Cache Nat Nat) 0).1 = none ↔
      0 ∉ (Cache.empty Policy.lru 2 : Cache Nat Nat).keys) ∧
    (findVal (Cache.empty Policy.lru 2 : Cache Nat Nat).entries 0 = some 7 →
      (getOp (Cache.empty Policy.lru 2 : Cache Nat Nat) 0).1 = some 7) ∧
    ((getOp (addOp (Cache.empty Policy.lru 2 : Cache Nat Nat) 0 5 0) 0).1
      = some 5) ∧
    ((0 : Nat) ≠ 1 →
      (addOp (Cache.empty Policy.lru 2 : Cache Nat Nat) 1 5 0).present 0 = true →
      (getOp (addOp (Cache.empty Policy.lru 2 : Cache Nat Nat) 1 5 0) 0).1
        = (getOp (Cache.empty Policy.lru 2 : Cache Nat Nat) 0).1) ∧
    (∀ k₂, (getOp (getOp (Cache.empty Policy.lru 2 : Cache Nat Nat) k₂).2 0).1
      = (getOp (Cache.empty Policy.lru 2 : Cache Nat Nat) 0).1) :=
  C7_get_miss_semantics (Cache.empty Policy.lru 2 : Cache Nat Nat)
    (Reachable.empty Policy.lru 2 (by decide)) 0 1 7 5 0

/-- C5 (witness): the exact-doubling and exact-halving equations applied at
`start_retry = 1, max_retry = 10, previous = 4`, first with one started node
and then with none. -/
theorem C5_biexponential_exact_witness :
    (biexponential_increase 1 10 (some 4) [] [] [2] [] = min ((4 : ℚ) * 2) 10 ∧
      biexponential_adopt 1 10 (some 4) [] [] [2] [] = min ((4 : ℚ) * 2) 10) ∧
    biexponential_adopt 1 10 (some 4) [] [] [] [] = max ((4 : ℚ) / 2) 1 :=
  ⟨(C5_biexponential_exact 1 10 4 [] [] [2] []).1 (Or.inl (by simp)),
    (C5_biexponential_exact 1 10 4 [] [] [] []).2 ⟨rfl, rfl⟩⟩

/-- C8 (code defect): when no stored record matches `task_id`, `retrieve`
reaches `cursor[0]` and fails with `IndexError` instead of the NotFound
failure (`FileNotFoundError`): a pymongo cursor is always truthy, so the
`elif not cursor:` guard is dead and `retrieve` can never raise
`FileNotFoundError` on any input.  The other branches do match the claim:
more than one matching record raises the Ambiguous `ValueError`, and a
unique match returns the stored result. -/
theorem C8_retrieve_notfound_bug :
    MongoStorage.retrieve [] "flow1" "Task1" "id1" = RetrieveOutcome.indexError ∧
    (∀ (collection : List MongoRecord) (flow_name task_name task_id : String),
      MongoStorage.retrieve collection flow_name task_name task_id ≠
        RetrieveOutcome.fileNotFoundError) ∧
    MongoStorage.retrieve
      [⟨"flow1", "args", "Task1", "id1", "res1"⟩,
       ⟨"flow1", "args", "Task1", "id1", "res2"⟩] "flow1" "Task1" "id1"
      = RetrieveOutcome.valueError ∧
    MongoStorage.retrieve [⟨"flow1", "args", "Task1", "id1", "res1"⟩]
      "flow1" "Task1" "id1" = RetrieveOutcome.ok "res1" := by
  refine ⟨by decide, ?_, by decide, by decide⟩
  intro collection flow_name task_name task_id
  simp only [MongoStorage.retrieve]
  split_ifs with h1 h2
  · simp
  · cases hh : (collection.filter (fun r => r.task_id == task_id)).head? with
    | none => simp
    | some record =>
      show (if task_name = record.task_name then RetrieveOutcome.ok record.result
        else RetrieveOutcome.assertionError) ≠ RetrieveOutcome.fileNotFoundError
      split_ifs <;> simp
  · simp [cursorTruthy] at h2

/-- C9 (counterexample): `store_error`, at a concrete valid call, raises
`NotImplementedError` rather than returning normally. -/
theorem C9_counterexample :
    MongoStorage.store_error "args" "flow1" "Task1" "id1" "exc"
      = Except.error "NotImplementedError" ∧
    MongoStorage.store_error "args" "flow1" "Task1" "id1" "exc"
      ≠ Except.ok () := by
  refine ⟨rfl, ?_⟩
  intro h
  exact Except.noConfusion h

/-- C9 (amended): `store_error` is not implemented by MongoStorage: every
call raises `NotImplementedError` instead of recording the failure. -/
theorem C9_store_error_not_implemented
    (node_args flow_name task_name task_id exc_info : String) :
    MongoStorage.store_error node_args flow_name task_name task_id exc_info
      = Except.error "NotImplementedError" :=
  rfl

/-- C10: `from_dict` changes `predicates_module` alone, and only when the
key `"predicates_module"` is present in the dictionary; `trace` and
`dispatcher_strategy` are never changed, and with the key absent the whole
configuration is unchanged. -/
theorem C10_from_dict_frame (cls : GlobalConfig) (d : String → Option String) :
    (cls.from_dict d).trace = cls.trace ∧
    (cls.from_dict d).dispatcher_strategy = cls.dispatcher_strategy ∧
    (d "predicates_module" = none → cls.from_dict d = cls) ∧
    (∀ v, d "predicates_module" = some v →
      cls.from_dict d = { cls with predicates_module := v }) := by
  unfold GlobalConfig.from_dict
  cases hd : d "predicates_module" with
  | none =>
    refine ⟨rfl, rfl, fun _ => rfl, ?_⟩
    intro v hv
    exact Option.noConfusion hv
  | some w =>
    refine ⟨rfl, rfl, ?_, ?_⟩
    · intro hv
      exact Option.noConfusion hv
    · intro v hv
      injection hv with hv
      rw [hv]

/-- C10 (witness): `from_dict` applied to the default configuration and a
dictionary without the `"predicates_module"` key changes nothing. -/
theorem C10_from_dict_frame_witness :
    (GlobalConfig.mk "parsley.predicates" none none).from_dict (fun _ => none)
      = GlobalConfig.mk "parsley.predicates" none none :=
  (C10_from_dict_frame (GlobalConfig.mk "parsley.predicates" none none)
    (fun _ => none)).2.2.1 rfl

end Selinonlib
